import Mathlib

/-!
Verification of the cashew filesystem message-passing core:
the message-queue consumer (`src/pi/extensions/message-queue.ts`),
the status-log writer (the pi-subscribe extension), and the
knowledge-worker role/metadata extension (`src/pi/extensions/kw-role.ts`).

Text is modelled as `List Char` (a JS string, one element per UTF-16 unit;
the characters used by the claims are all in the BMP, where code units and
code points coincide).  `JSON.parse` is a JS builtin, not repository code,
so it enters the model as an oracle parameter `parse : List Char → Option JVal`
(`none` models a parse exception).
-/

/-- JS whitespace, the character class `\s` and the set removed by
`String.prototype.trim`. -/
def isJsSpace (c : Char) : Bool :=
  let n := c.toNat
  n = 32 || n = 9 || n = 10 || n = 11 || n = 12 || n = 13 || n = 160 ||
  n = 0x1680 || (0x2000 ≤ n && n ≤ 0x200a) || n = 0x2028 || n = 0x2029 ||
  n = 0x202f || n = 0x205f || n = 0x3000 || n = 0xfeff

/-- JS `s.trim()`: strip leading and trailing whitespace. -/
def jsTrim (s : List Char) : List Char :=
  ((s.dropWhile isJsSpace).reverse.dropWhile isJsSpace).reverse

/-- JS `s.split("\n")`: segments between newlines, empties kept
(so `""` splits to `[""]`, and a trailing newline yields a final `""`). -/
def splitNl : List Char → List (List Char)
  | [] => [[]]
  | c :: cs =>
    let r := splitNl cs
    if c = '\n' then [] :: r
    else
      match r with
      | [] => [[c]]
      | seg :: rest => (c :: seg) :: rest

/-- The non-blank lines of a queue file:
`content.split("\n").filter((line) => line.trim())`. -/
def linesOf (s : List Char) : List (List Char) :=
  (splitNl s).filter (fun l => !(jsTrim l).isEmpty)

/-- JS `lines.join("\n")`. -/
def joinNl : List (List Char) → List Char
  | [] => []
  | [l] => l
  | l :: l₂ :: ls => l ++ '\n' :: joinNl (l₂ :: ls)

theorem splitNl_ne_nil (s : List Char) : splitNl s ≠ [] := by
  induction s with
  | nil => simp [splitNl]
  | cons c cs ih =>
    simp only [splitNl]
    split
    · simp
    · cases h : splitNl cs with
      | nil => simp
      | cons seg rest => simp [h]

theorem mem_splitNl_no_nl {s seg : List Char} (h : seg ∈ splitNl s) :
    '\n' ∉ seg := by
  induction s generalizing seg with
  | nil =>
    simp only [splitNl, List.mem_singleton] at h
    simp [h]
  | cons c cs ih =>
    simp only [splitNl] at h
    split at h
    · rcases List.mem_cons.mp h with h0 | h1
      · simp [h0]
      · exact ih h1
    · rename_i hc
      cases hsp : splitNl cs with
      | nil => exact absurd hsp (splitNl_ne_nil cs)
      | cons s0 rest =>
        rw [hsp] at h
        rcases List.mem_cons.mp h with h0 | h1
        · subst h0
          intro hm
          rcases List.mem_cons.mp hm with h2 | h3
          · exact hc h2.symm
          · exact ih (hsp ▸ List.mem_cons_self s0 rest) h3
        · exact ih (hsp ▸ List.mem_cons.mpr (Or.inr h1))

theorem splitNl_append_no_nl {l : List Char} (r : List Char)
    (h : '\n' ∉ l) : splitNl (l ++ '\n' :: r) = l :: splitNl r := by
  induction l with
  | nil => simp [splitNl]
  | cons c cs ih =>
    have hc : c ≠ '\n' := fun hcn => h (hcn ▸ List.mem_cons_self c cs)
    have hcs : '\n' ∉ cs := fun hm => h (List.mem_cons.mpr (Or.inr hm))
    simp only [List.cons_append, splitNl, if_neg hc]
    rw [show cs.append ('\n' :: r) = cs ++ '\n' :: r from rfl, ih hcs]

theorem splitNl_join {lls : List (List Char)}
    (h : ∀ l ∈ lls, '\n' ∉ l) (hne : lls ≠ []) :
    splitNl (joinNl lls ++ ['\n']) = lls ++ [[]] := by
  induction lls with
  | nil => exact absurd rfl hne
  | cons l ls ih =>
    cases ls with
    | nil =>
      have hl : '\n' ∉ l := h l (List.mem_cons_self l [])
      show splitNl (l ++ ['\n']) = [l, []]
      have : (['\n'] : List Char) = '\n' :: [] := rfl
      rw [show l ++ ['\n'] = l ++ '\n' :: [] from rfl,
        splitNl_append_no_nl [] hl]
      rfl
    | cons l₂ ls₂ =>
      have hl : '\n' ∉ l := h l (List.mem_cons_self l _)
      have hrest : ∀ x ∈ l₂ :: ls₂, '\n' ∉ x :=
        fun x hx => h x (List.mem_cons.mpr (Or.inr hx))
      have hne₂ : (l₂ :: ls₂ : List (List Char)) ≠ [] := by simp
      show splitNl ((l ++ '\n' :: joinNl (l₂ :: ls₂)) ++ ['\n']) = _
      rw [List.append_assoc, List.cons_append, splitNl_append_no_nl _ hl,
        ih hrest hne₂]
      rfl

theorem jsTrim_nil : jsTrim [] = [] := rfl

theorem jsTrim_eq_nil_of_all {s : List Char} (h : s.all isJsSpace) :
    jsTrim s = [] := by
  have h1 : s.dropWhile isJsSpace = [] := by
    rw [List.dropWhile_eq_nil_iff]
    intro x hx
    exact List.all_eq_true.mp h x hx
  simp [jsTrim, h1]

theorem all_of_jsTrim_eq_nil {s : List Char} (h : jsTrim s = []) :
    s.all isJsSpace := by
  unfold jsTrim at h
  have h2 : (s.dropWhile isJsSpace).reverse.dropWhile isJsSpace = [] := by
    have := congrArg List.reverse h
    simpa using this
  have h3 : ∀ x ∈ (s.dropWhile isJsSpace).reverse, isJsSpace x :=
    List.dropWhile_eq_nil_iff.mp h2
  rw [List.all_eq_true]
  intro x hx
  rcases List.mem_append.mp ((List.takeWhile_append_dropWhile
      (p := isJsSpace) (l := s)) ▸ hx) with h4 | h5
  · exact List.mem_takeWhile_imp h4
  · exact h3 x (List.mem_reverse.mpr h5)

theorem mem_of_mem_splitNl {s seg : List Char} {c : Char}
    (hs : seg ∈ splitNl s) (hc : c ∈ seg) : c ∈ s := by
  induction s generalizing seg with
  | nil =>
    simp only [splitNl, List.mem_singleton] at hs
    subst hs; simp at hc
  | cons a as ih =>
    simp only [splitNl] at hs
    split at hs
    · rcases List.mem_cons.mp hs with h0 | h1
      · subst h0; simp at hc
      · exact List.mem_cons.mpr (Or.inr (ih h1 hc))
    · cases hsp : splitNl as with
      | nil => exact absurd hsp (splitNl_ne_nil as)
      | cons s0 rest =>
        rw [hsp] at hs
        rcases List.mem_cons.mp hs with h0 | h1
        · subst h0
          rcases List.mem_cons.mp hc with h2 | h3
          · exact List.mem_cons.mpr (Or.inl h2)
          · exact List.mem_cons.mpr
              (Or.inr (ih (hsp ▸ List.mem_cons_self s0 rest) h3))
        · exact List.mem_cons.mpr
            (Or.inr (ih (hsp ▸ List.mem_cons.mpr (Or.inr h1)) hc))

theorem linesOf_eq_nil_of_trim {content : List Char}
    (h : jsTrim content = []) : linesOf content = [] := by
  have hall : content.all isJsSpace := all_of_jsTrim_eq_nil h
  unfold linesOf
  rw [List.filter_eq_nil_iff]
  intro seg hseg
  have hsegall : seg.all isJsSpace := by
    rw [List.all_eq_true]
    intro x hx
    exact List.all_eq_true.mp hall x (mem_of_mem_splitNl hseg hx)
  simp [jsTrim_eq_nil_of_all hsegall]

theorem mem_linesOf_no_nl {content l : List Char} (h : l ∈ linesOf content) :
    '\n' ∉ l :=
  mem_splitNl_no_nl (List.mem_of_mem_filter h)

theorem mem_linesOf_nonblank {content l : List Char}
    (h : l ∈ linesOf content) : jsTrim l ≠ [] := by
  have := List.of_mem_filter h
  simp only [Bool.not_eq_true', List.isEmpty_eq_false] at this
  simpa using this

theorem linesOf_rewrite {retry : List (List Char)}
    (h1 : ∀ l ∈ retry, '\n' ∉ l) (h2 : ∀ l ∈ retry, jsTrim l ≠ [])
    (hne : retry ≠ []) : linesOf (joinNl retry ++ ['\n']) = retry := by
  unfold linesOf
  rw [splitNl_join h1 hne, List.filter_append]
  have hlast : List.filter (fun l => !(jsTrim l).isEmpty) [([] : List Char)]
      = [] := by simp [jsTrim]
  rw [hlast, List.append_nil, List.filter_eq_self]
  intro l hl
  simp [List.isEmpty_iff, h2 l hl]

theorem linesOf_nil : linesOf [] = [] := rfl

/-! ## JSON values

`JSON.parse` output and the metadata file are modelled as `JVal`.
Objects are association lists in insertion order (JSON.parse keeps the
last duplicate key; oracles used in witnesses are duplicate-free). -/

inductive JVal where
  | null
  | bool (b : Bool)
  | num (n : Int)
  | str (s : List Char)
  | arr (xs : List JVal)
  | obj (fields : List (List Char × JVal))

/-- An object's field list. -/
abbrev JObj := List (List Char × JVal)

/-- Property read `o[k]`; `none` models `undefined`. -/
def lookupField : JObj → List Char → Option JVal
  | [], _ => none
  | (k', v) :: rest, k => if k' = k then some v else lookupField rest k

/-- JS object spread/assignment semantics for one key: replace an existing
binding in place, else append. -/
def setField : JObj → List Char → JVal → JObj
  | [], k, v => [(k, v)]
  | (k', v') :: rest, k, v =>
    if k' = k then (k, v) :: rest else (k', v') :: setField rest k v

/-- JS truthiness of a JSON value. -/
def jvTruthy : JVal → Bool
  | .null => false
  | .bool b => b
  | .num n => n ≠ 0
  | .str s => s ≠ []
  | .arr _ => true
  | .obj _ => true

theorem lookupField_setField_same (o : JObj) (k : List Char) (v : JVal) :
    lookupField (setField o k v) k = some v := by
  induction o with
  | nil => simp [setField, lookupField]
  | cons kv rest ih =>
    obtain ⟨k', v'⟩ := kv
    simp only [setField]
    by_cases h : k' = k
    · simp [h, lookupField]
    · simp [h, lookupField, ih]

theorem lookupField_setField_ne (o : JObj) {k k' : List Char} (v : JVal)
    (h : k' ≠ k) : lookupField (setField o k v) k' = lookupField o k' := by
  have hk : k ≠ k' := fun he => h he.symm
  induction o with
  | nil => simp [setField, lookupField, hk]
  | cons kv rest ih =>
    obtain ⟨k₀, v₀⟩ := kv
    simp only [setField]
    by_cases h0 : k₀ = k
    · subst h0
      simp only [lookupField, if_neg hk]
    · simp only [if_neg h0, lookupField]
      by_cases h1 : k₀ = k'
      · simp [h1]
      · simp [h1, ih]

/-! ## Queue entries and the drain cycle

From `processQueue` in `src/pi/extensions/message-queue.ts`. -/

/-- Delivery mode of a queue entry. -/
inductive QMode where
  | followUp
  | steer
deriving DecidableEq, Repr

/-- A structurally valid queue entry handed to `pi.sendUserMessage`. -/
structure QueueEntry where
  message : List Char
  mode : QMode
deriving DecidableEq, Repr

/-- Outcome of the per-line parse/validate step of `processQueue`.
`deadParse`: `JSON.parse` threw (or property access on `null` threw),
handled by the per-line `catch`.  `deadEmpty`: the entry parsed but
`message` was missing, non-string or empty, handled by the explicit
dead-letter branch.  Both are appended to the dead-letter file. -/
inductive LineClass where
  | deadParse
  | deadEmpty
  | valid (e : QueueEntry)
deriving DecidableEq, Repr

def LineClass.isValid : LineClass → Bool
  | .valid _ => true
  | _ => false

def LineClass.isDead : LineClass → Bool
  | .valid _ => false
  | _ => true

/-- The per-line logic of `processQueue`:
`JSON.parse(line)`, then
`const message = typeof parsed.message === "string" ? parsed.message : ""`,
`const mode = parsed.mode === "steer" ? "steer" : "followUp"`,
dead-letter if `!message`.
A `parse` result of `none` models a `JSON.parse` exception; a parsed
`null` throws a `TypeError` on `parsed.message` (caught by the same
per-line `catch`); any other non-object yields `undefined` properties,
hence an empty `message`. -/
def classifyLine (parse : List Char → Option JVal) (line : List Char) :
    LineClass :=
  match parse line with
  | none => .deadParse
  | some .null => .deadParse
  | some (.obj fields) =>
    let message := match lookupField fields "message".toList with
      | some (.str s) => s
      | _ => []
    if message = [] then .deadEmpty
    else
      .valid ⟨message,
        match lookupField fields "mode".toList with
        | some (.str s) => if s = "steer".toList then .steer else .followUp
        | _ => .followUp⟩
  | some _ => .deadEmpty

/-- Observable effects of one drain cycle. -/
structure DrainOut where
  /-- Raw lines appended to the dead-letter file, in order. -/
  dead : List (List Char)
  /-- `pi.sendUserMessage` calls in order: source line, entry, and whether
  the handoff succeeded (`false` = the call threw and was caught). -/
  attempts : List (List Char × QueueEntry × Bool)
  /-- `retryLines` at the end of the loop. -/
  retry : List (List Char)
deriving Repr

/-- The `for (const line of lines)` loop of `processQueue`.  `send k`
is the outcome of the `k`-th `sendUserMessage` call of this cycle. -/
def drainLoop (cl : List Char → LineClass) (send : Nat → Bool) :
    List (List Char) → Nat → DrainOut
  | [], _ => ⟨[], [], []⟩
  | l :: ls, k =>
    match cl l with
    | .deadParse =>
      let r := drainLoop cl send ls k
      ⟨l :: r.dead, r.attempts, r.retry⟩
    | .deadEmpty =>
      let r := drainLoop cl send ls k
      ⟨l :: r.dead, r.attempts, r.retry⟩
    | .valid e =>
      let ok := send k
      let r := drainLoop cl send ls (k + 1)
      ⟨r.dead, (l, e, ok) :: r.attempts, if ok then r.retry else l :: r.retry⟩

/-- One drain cycle of `processQueue` on a present queue file, with all
file I/O succeeding (the I/O-failure model is `processQueueIO` below).
Returns the queue file's new content and the cycle's effects.
Mirrors: the `!content.trim()` early return, the blank-line filter, the
per-line loop, and the final rewrite
(`retryLines.join("\n") + "\n"`, or `""` when no retries). -/
def processQueue (cl : List Char → LineClass) (send : Nat → Bool)
    (content : List Char) : List Char × DrainOut :=
  if jsTrim content = [] then (content, ⟨[], [], []⟩)
  else
    let ls := linesOf content
    if ls = [] then (content, ⟨[], [], []⟩)
    else
      let r := drainLoop cl send ls 0
      (if r.retry = [] then [] else joinNl r.retry ++ ['\n'], r)

/-- File-level wrapper: `processQueue` returns immediately when the queue
file is absent (`existsSync` guard); a present file is rewritten, never
deleted. -/
def processQueueFile (cl : List Char → LineClass) (send : Nat → Bool) :
    Option (List Char) → Option (List Char) × DrainOut
  | none => (none, ⟨[], [], []⟩)
  | some content =>
    let (c', r) := processQueue cl send content
    (some c', r)

/-! ## Status log writer

From the pi-subscribe extension (status-log writer). -/

/-- The fixed message cap `MAX_MESSAGE_CHARS`. -/
def MAX_MESSAGE_CHARS : Nat := 4000

/-- A message part, one element of an array-valued `content`
(`none` in the surrounding list models a falsy array element,
dropped by the `part && part.type === "text"` filter). -/
structure MPart where
  type : List Char
  /-- `part.text`; `none` models `undefined` (coalesced to `""`). -/
  text : Option (List Char)

/-- An assistant/user message's `content` field.  `nullc` covers every
falsy or non-string non-array value (all of which extract to `""`). -/
inductive MContent where
  | nullc
  | strc (s : List Char)
  | arrc (parts : List (Option MPart))

/-- One element of `event.messages`. -/
structure Msg where
  role : List Char
  content : MContent
  stopReason : Option (List Char)
  errorMessage : Option (List Char)

/-- JS `.join(" ")`. -/
def joinSp : List (List Char) → List Char
  | [] => []
  | [l] => l
  | l :: l₂ :: ls => l ++ ' ' :: joinSp (l₂ :: ls)

/-- `extractText(content)`: a string is returned as is; an array is
filtered to text parts, their texts joined with `" "` and trimmed;
anything else gives `""`. -/
def extractText : MContent → List Char
  | .nullc => []
  | .strc s => s
  | .arrc parts =>
    jsTrim (joinSp (parts.filterMap (fun op =>
      match op with
      | some p => if p.type = "text".toList then some (p.text.getD []) else none
      | none => none)))

/-- `truncateMessage`: cap at `MAX_MESSAGE_CHARS`, appending a one-character
ellipsis when cut. -/
def truncateMessage (message : List Char) : List Char × Bool :=
  if message.length ≤ MAX_MESSAGE_CHARS then (message, false)
  else (message.take MAX_MESSAGE_CHARS ++ ['…'], true)

/-- `[...messages].reverse().find((message) => message?.role === "assistant")`. -/
def lastAssistant (messages : List Msg) : Option Msg :=
  messages.reverse.find? (fun m => m.role = "assistant".toList)

/-- One line of the status log. -/
structure StatusEntry where
  timestamp : Nat
  status : List Char
  role : List Char
  stopReason : Option (List Char)
  errorMessage : Option (List Char)
  truncated : Bool
  message : List Char
  cwd : List Char
  sessionFile : Option (List Char)

/-- The entry object built by the `agent_end` handler. -/
def mkStatusEntry (m : Msg) (now : Nat) (cwd : List Char)
    (sessionFile : Option (List Char)) : StatusEntry :=
  let t := truncateMessage (extractText m.content)
  { timestamp := now
    status := "done".toList
    role := "assistant".toList
    stopReason := m.stopReason
    errorMessage := m.errorMessage
    truncated := t.2
    message := t.1
    cwd := cwd
    sessionFile := sessionFile }

/-- The `agent_end` handler of the status extension: no-op unless a status
file is set and the turn has an assistant message; otherwise it builds
exactly one entry.  (The `appendFileSync` itself is modelled with its
failure mode in `statusAppendIO` below.) -/
def agentEndStatus (statusFile : List Char) (messages : List Msg)
    (now : Nat) (cwd : List Char) (sessionFile : Option (List Char)) :
    Option StatusEntry :=
  if statusFile = [] then none
  else
    match lastAssistant messages with
    | none => none
    | some m => some (mkStatusEntry m now cwd sessionFile)

/-- The status log after one `agent_end` event. -/
def statusLogAfter (statusFile : List Char) (messages : List Msg)
    (now : Nat) (cwd : List Char) (sessionFile : Option (List Char))
    (log : List StatusEntry) : List StatusEntry :=
  log ++ (agentEndStatus statusFile messages now cwd sessionFile).toList

/-! ## Filesystem key derivation

`getQueueFile` (message-queue.ts) and `safePathFromCwd` (status extension)
both compute `cwd.toLowerCase()`, then replace every slash with a dash
(global regex replace), then strip one leading dash (anchored regex
replace). -/

/-- The queue consumer's key derivation, from `getQueueFile`. -/
def mqSafePath (cwd : List Char) : List Char :=
  let lowered := cwd.map Char.toLower
  let replaced := lowered.map (fun c => if c = '/' then '-' else c)
  match replaced with
  | '-' :: rest => rest
  | s => s

/-- The status writer's key derivation, from `safePathFromCwd`. -/
def safePathFromCwd (cwd : List Char) : List Char :=
  let lowered := cwd.map Char.toLower
  let replaced := lowered.map (fun c => if c = '/' then '-' else c)
  match replaced with
  | '-' :: rest => rest
  | s => s

/-- Modelled from the spec: `deriveFsKey(workingDirectory)` lower-cases the
path, replaces each path separator `/` with the reserved separator `-`,
then strips a single leading separator.  Stated from the spec's words for
the refinement claim C7. -/
def deriveFsKeySpec (cwd : List Char) : List Char :=
  let lowered := cwd.map Char.toLower
  let replaced := lowered.map (fun c => if c = '/' then '-' else c)
  match replaced with
  | '-' :: rest => rest
  | s => s

/-! ## Knowledge-worker role/metadata extension

From `src/pi/extensions/kw-role.ts`. -/

/-- Split on the tag separators `;` and `,` (regex class, empties kept). -/
def splitTagSeps : List Char → List (List Char)
  | [] => [[]]
  | c :: cs =>
    let r := splitTagSeps cs
    if c = ';' ∨ c = ',' then [] :: r
    else
      match r with
      | [] => [[c]]
      | seg :: rest => (c :: seg) :: rest

/-- `parseTags(raw)`: split on comma/semicolon, trim each piece, drop
empties (and `[]` for a missing/empty raw string). -/
def parseTags (raw : List Char) : List (List Char) :=
  if raw = [] then []
  else ((splitTagSeps raw).map jsTrim).filter (fun t => !t.isEmpty)

/-- Advance to the character after the next newline: the next multiline
`^` anchor candidate. -/
def dropAfterNewline : List Char → Option (List Char)
  | [] => none
  | c :: r => if c = '\n' then some r else dropAfterNewline r

/-- Backtracking tail of the inline-directive regex when everything after
the command word is whitespace: the greedy whitespace-plus gives back
characters until the dot-plus group can match (a non-newline character
must follow the consumed whitespace). -/
def backtrackWs (s2 : List Char) : Nat → Option (List Char)
  | 0 => none
  | k + 1 =>
    if s2.getD (k + 1) '\n' ≠ '\n' then
      some ((s2.drop (k + 1)).takeWhile (fun c => c ≠ '\n'))
    else backtrackWs s2 k

/-- Try the inline-directive pattern at one multiline anchor: optional
whitespace (which may span newlines), the literal command word, at least
one whitespace character (greedy, with backtracking), then a captured run
of one or more non-newline characters ending at a line end.  This is the
JS regex `text.match` semantics of the kw-role patterns at a fixed `^`
position.  Returns the capture group. -/
def matchCmdAt (cmd s : List Char) : Option (List Char) :=
  let s1 := s.dropWhile isJsSpace
  if cmd.isPrefixOf s1 then
    let s2 := s1.drop cmd.length
    let w := (s2.takeWhile isJsSpace).length
    if w = 0 then none
    else if w < s2.length then
      some ((s2.drop w).takeWhile (fun c => c ≠ '\n'))
    else backtrackWs s2 (w - 1)
  else none

/-- Leftmost-match scan over the multiline anchors (string start and each
position after a newline), fuelled by the text length (each step consumes
at least one character, so the fuel never runs out). -/
def scanCmdAux (cmd : List Char) : Nat → List Char → Option (List Char)
  | 0, _ => none
  | fuel + 1, s =>
    match matchCmdAt cmd s with
    | some r => some r
    | none =>
      match dropAfterNewline s with
      | some s' => scanCmdAux cmd fuel s'
      | none => none

/-- `text.match` for the kw-role inline-directive patterns: first match in
the multiline sense, returning the payload capture. -/
def scanCmd (cmd text : List Char) : Option (List Char) :=
  scanCmdAux cmd (text.length + 1) text

def kwTagsLit : List Char := "/kw-tags".toList

def kwNoteLit : List Char := "/kw-note".toList

/-- The object update of the `kw-tags` handler and of the inline tags
branch: spread the current object, then set `tags` and `updatedAt`. -/
def kwTagsUpdater (tagList : List (List Char)) (now : List Char)
    (current : JObj) : JObj :=
  setField (setField current "tags".toList (JVal.arr (tagList.map JVal.str)))
    "updatedAt".toList (JVal.str now)

/-- JS `argVal || current.description || ""` as a JSON value. -/
def descFallback (argVal : List Char) (current : JObj) : JVal :=
  if argVal ≠ [] then JVal.str argVal
  else
    match lookupField current "description".toList with
    | some v => if jvTruthy v then v else JVal.str []
    | none => JVal.str []

/-- The object update of the `kw-note` handler: spread the current object,
then set `description` (falling back to the existing one) and `updatedAt`. -/
def kwNoteUpdater (args : List Char) (now : List Char) (current : JObj) :
    JObj :=
  setField (setField current "description".toList (descFallback args current))
    "updatedAt".toList (JVal.str now)

/-- `updateMeta`: read the current metadata object (read or parse failure
falls back to the empty object), apply the updater, write the result back.
Returns the object written. -/
def updateMetaPure (fileObj : Option JObj) (updater : JObj → JObj) : JObj :=
  updater (fileObj.getD [])

/-- `applyInlineMeta(text)`: scan the last assistant text for the first
`kw-tags` and `kw-note` directive lines and apply the corresponding
metadata updates (tags first, then note, each a fresh read-merge-write).
Takes the metadata file path (the update is skipped when unset) and the
current metadata object; returns the resulting metadata object. -/
def applyInlineMeta (metaFile text : List Char) (cur : JObj)
    (now : List Char) : JObj :=
  if metaFile = [] ∨ text = [] then cur
  else
    let cur1 :=
      match scanCmd kwTagsLit text with
      | some payload => updateMetaPure (some cur) (kwTagsUpdater (parseTags payload) now)
      | none => cur
    match scanCmd kwNoteLit text with
    | some payload =>
      let noteText := jsTrim payload
      updateMetaPure (some cur1) (fun c =>
        setField (setField c "description".toList (descFallback noteText c))
          "updatedAt".toList (JVal.str now))
    | none => cur1

/-! ## I/O failure model

Each filesystem call of an agent-hosted operation is given an outcome by
an oracle `io : Nat → Bool` (`false` = the call throws), in call order.
`Except.error` models an exception escaping the operation. -/

/-- Queue-side filesystem state: the live queue file (`none` = absent) and
the dead-letter file's lines. -/
structure QWorld where
  queue : Option (List Char)
  deadletter : List (List Char)

/-- Result of the drain loop under the I/O oracle. -/
structure IOLoopRes where
  /-- Dead-letter lines successfully appended, in order. -/
  deadNew : List (List Char)
  retry : List (List Char)
  /-- Next unused I/O call index. -/
  ioNext : Nat
  /-- An exception escaped the loop to the outer catch. -/
  escaped : Bool

/-- The drain loop with fallible appends.  A failed dead-letter append in
the structurally-invalid branch is retried once by the per-line catch
(the original code appends again there); a failure of that second append
escapes to the outer catch.  A parse-failure line has only the catch's
single append.  `sendUserMessage` failures are caught and never escape. -/
def drainIOLoop (cl : List Char → LineClass) (send io : Nat → Bool) :
    List (List Char) → Nat → Nat → IOLoopRes
  | [], ioIdx, _ => ⟨[], [], ioIdx, false⟩
  | l :: ls, ioIdx, sidx =>
    match cl l with
    | .valid _ =>
      let r := drainIOLoop cl send io ls ioIdx (sidx + 1)
      ⟨r.deadNew, if send sidx then r.retry else l :: r.retry, r.ioNext,
        r.escaped⟩
    | .deadParse =>
      if io ioIdx then
        let r := drainIOLoop cl send io ls (ioIdx + 1) sidx
        ⟨l :: r.deadNew, r.retry, r.ioNext, r.escaped⟩
      else ⟨[], [], ioIdx + 1, true⟩
    | .deadEmpty =>
      if io ioIdx then
        let r := drainIOLoop cl send io ls (ioIdx + 1) sidx
        ⟨l :: r.deadNew, r.retry, r.ioNext, r.escaped⟩
      else if io (ioIdx + 1) then
        let r := drainIOLoop cl send io ls (ioIdx + 2) sidx
        ⟨l :: r.deadNew, r.retry, r.ioNext, r.escaped⟩
      else ⟨[], [], ioIdx + 2, true⟩

/-- The body of `processQueue` inside its outer `try`: I/O call 0 is the
`readFileSync`, the loop's appends follow, and the final `writeFileSync`
is the next call after the loop.  `Except.error` carries the filesystem
state at the uncaught throw (dead-letter appends persist; the queue file
keeps its old content because the rewrite never ran). -/
def processQueueInner (cl : List Char → LineClass) (send io : Nat → Bool)
    (w : QWorld) : Except QWorld QWorld :=
  match w.queue with
  | none => .ok w
  | some content =>
    if io 0 = false then .error w
    else if jsTrim content = [] then .ok w
    else
      let ls := linesOf content
      if ls = [] then .ok w
      else
        let r := drainIOLoop cl send io ls 1 0
        let w1 : QWorld := ⟨w.queue, w.deadletter ++ r.deadNew⟩
        if r.escaped then .error w1
        else if io r.ioNext then
          .ok ⟨some (if r.retry = [] then [] else joinNl r.retry ++ ['\n']),
            w1.deadletter⟩
        else .error w1

/-- `processQueue` as the hosting process sees it: the outer
`try ... catch (error) { /* File read/write error, ignore */ }` swallows
every escaped exception, so the operation always returns normally. -/
def processQueueIO (cl : List Char → LineClass) (send io : Nat → Bool)
    (w : QWorld) : Except Unit QWorld :=
  match processQueueInner cl send io w with
  | .ok w' => .ok w'
  | .error w' => .ok w'

/-- `updateMeta` with fallible I/O: the read (call 0) is wrapped in its own
try/catch falling back to the empty object, and the write (call 1) is
wrapped in a try/catch that ignores the failure, leaving the file as it
was.  The operation always returns normally. -/
def updateMetaIO (io : Nat → Bool) (fileObj : Option JObj)
    (updater : JObj → JObj) : Except Unit (Option JObj) :=
  let current := if io 0 then fileObj.getD [] else []
  let updated := updater current
  if io 1 then .ok (some updated) else .ok fileObj

/-- The status extension's `agent_end` handler with fallible I/O: the
`appendFileSync` (call 0) has no surrounding try/catch, so a write
failure escapes the handler as `Except.error`. -/
def statusAppendIO (io : Nat → Bool) (statusFile : List Char)
    (messages : List Msg) (now : Nat) (cwd : List Char)
    (sessionFile : Option (List Char)) (log : List StatusEntry) :
    Except Unit (List StatusEntry) :=
  match agentEndStatus statusFile messages now cwd sessionFile with
  | none => .ok log
  | some e => if io 0 then .ok (log ++ [e]) else .error ()

/-! ## Drain-cycle lemmas -/

theorem drainLoop_attempts_eq (cl : List Char → LineClass)
    (send : Nat → Bool) (ls : List (List Char)) (k : Nat) :
    (drainLoop cl send ls k).attempts.map (fun a => (a.1, a.2.1))
      = ls.filterMap (fun l =>
          match cl l with
          | .valid e => some (l, e)
          | _ => none) := by
  induction ls generalizing k with
  | nil => rfl
  | cons l ls ih =>
    cases hcl : cl l <;>
      simp [drainLoop, hcl, List.filterMap_cons, ih]

theorem drainLoop_dead_eq (cl : List Char → LineClass) (send : Nat → Bool)
    (ls : List (List Char)) (k : Nat) :
    (drainLoop cl send ls k).dead = ls.filter (fun l => (cl l).isDead) := by
  induction ls generalizing k with
  | nil => rfl
  | cons l ls ih =>
    cases hcl : cl l <;>
      simp [drainLoop, hcl, List.filter_cons, LineClass.isDead, ih]

theorem drainLoop_retry_eq (cl : List Char → LineClass) (send : Nat → Bool)
    (ls : List (List Char)) (k : Nat) :
    (drainLoop cl send ls k).retry
      = ((drainLoop cl send ls k).attempts.filter
          (fun a => !a.2.2)).map (fun a => a.1) := by
  induction ls generalizing k with
  | nil => rfl
  | cons l ls ih =>
    cases hcl : cl l with
    | deadParse => simp [drainLoop, hcl, ih]
    | deadEmpty => simp [drainLoop, hcl, ih]
    | valid e =>
      cases hs : send k <;>
        simp [drainLoop, hcl, hs, List.filter_cons, ih]

theorem drainLoop_attempts_fst (cl : List Char → LineClass)
    (send : Nat → Bool) (ls : List (List Char)) (k : Nat)
    (hv : ∀ l ∈ ls, (cl l).isValid) :
    (drainLoop cl send ls k).attempts.map (fun a => a.1) = ls := by
  induction ls generalizing k with
  | nil => rfl
  | cons l ls ih =>
    have hl := hv l (List.mem_cons_self l ls)
    have hrest : ∀ x ∈ ls, (cl x).isValid :=
      fun x hx => hv x (List.mem_cons.mpr (Or.inr hx))
    cases hcl : cl l with
    | deadParse => rw [hcl] at hl; simp [LineClass.isValid] at hl
    | deadEmpty => rw [hcl] at hl; simp [LineClass.isValid] at hl
    | valid e => simp [drainLoop, hcl, ih _ hrest]

theorem drainLoop_retry_sublist (cl : List Char → LineClass)
    (send : Nat → Bool) (ls : List (List Char)) (k : Nat) :
    (drainLoop cl send ls k).retry.Sublist ls := by
  induction ls generalizing k with
  | nil => exact List.Sublist.refl _
  | cons l ls ih =>
    cases hcl : cl l with
    | deadParse => simpa [drainLoop, hcl] using (ih k).cons l
    | deadEmpty => simpa [drainLoop, hcl] using (ih k).cons l
    | valid e =>
      cases hs : send k with
      | true => simpa [drainLoop, hcl, hs] using (ih (k + 1)).cons l
      | false => simpa [drainLoop, hcl, hs] using (ih (k + 1)).cons₂ l

theorem classify_of_mem_attempts {cl : List Char → LineClass}
    {send : Nat → Bool} {ls : List (List Char)} {k : Nat}
    {a : List Char × QueueEntry × Bool}
    (h : a ∈ (drainLoop cl send ls k).attempts) : cl a.1 = .valid a.2.1 := by
  induction ls generalizing k with
  | nil => simp [drainLoop] at h
  | cons l ls ih =>
    cases hcl : cl l with
    | deadParse => rw [drainLoop, hcl] at h; exact ih h
    | deadEmpty => rw [drainLoop, hcl] at h; exact ih h
    | valid e =>
      rw [drainLoop, hcl] at h
      rcases List.mem_cons.mp h with h0 | h1
      · subst h0; simpa using hcl
      · exact ih h1

theorem mem_ls_of_mem_attempts {cl : List Char → LineClass}
    {send : Nat → Bool} {ls : List (List Char)} {k : Nat}
    {a : List Char × QueueEntry × Bool}
    (h : a ∈ (drainLoop cl send ls k).attempts) : a.1 ∈ ls := by
  induction ls generalizing k with
  | nil => simp [drainLoop] at h
  | cons l ls ih =>
    cases hcl : cl l with
    | deadParse =>
      rw [drainLoop, hcl] at h
      exact List.mem_cons.mpr (Or.inr (ih h))
    | deadEmpty =>
      rw [drainLoop, hcl] at h
      exact List.mem_cons.mpr (Or.inr (ih h))
    | valid e =>
      rw [drainLoop, hcl] at h
      rcases List.mem_cons.mp h with h0 | h1
      · subst h0; exact List.mem_cons_self _ _
      · exact List.mem_cons.mpr (Or.inr (ih h1))

theorem mem_retry_iff_failed {cl : List Char → LineClass}
    {send : Nat → Bool} {ls : List (List Char)} {k : Nat} {l : List Char} :
    l ∈ (drainLoop cl send ls k).retry
      ↔ ∃ e, (l, e, false) ∈ (drainLoop cl send ls k).attempts := by
  rw [drainLoop_retry_eq]
  constructor
  · intro h
    rcases List.mem_map.mp h with ⟨a, ha, hfst⟩
    have hmem := List.mem_of_mem_filter ha
    have hok := List.of_mem_filter ha
    simp only [Bool.not_eq_true'] at hok
    refine ⟨a.2.1, ?_⟩
    have : a = (l, a.2.1, false) := by
      obtain ⟨a1, a2, a3⟩ := a
      simp only at hfst hok
      simp [hfst, hok]
    exact this ▸ hmem
  · rintro ⟨e, he⟩
    exact List.mem_map.mpr ⟨(l, e, false), List.mem_filter.mpr ⟨he, rfl⟩, rfl⟩

theorem drainLoop_retry_nil_of_all_ok {cl : List Char → LineClass}
    {send : Nat → Bool} {ls : List (List Char)} {k : Nat}
    (h : ∀ a ∈ (drainLoop cl send ls k).attempts, a.2.2 = true) :
    (drainLoop cl send ls k).retry = [] := by
  rw [drainLoop_retry_eq]
  have : (drainLoop cl send ls k).attempts.filter (fun a => !a.2.2) = [] := by
    rw [List.filter_eq_nil_iff]
    intro a ha
    simp [h a ha]
  simp [this]

theorem processQueue_eq_of_lines_ne {cl : List Char → LineClass}
    {send : Nat → Bool} {content : List Char}
    (h : linesOf content ≠ []) :
    processQueue cl send content
      = ((if (drainLoop cl send (linesOf content) 0).retry = [] then []
          else joinNl (drainLoop cl send (linesOf content) 0).retry ++ ['\n']),
         drainLoop cl send (linesOf content) 0) := by
  unfold processQueue
  have htrim : jsTrim content ≠ [] :=
    fun he => h (linesOf_eq_nil_of_trim he)
  rw [if_neg htrim, if_neg h]

theorem processQueue_eq_of_lines_nil {cl : List Char → LineClass}
    {send : Nat → Bool} {content : List Char}
    (h : linesOf content = []) :
    processQueue cl send content = (content, ⟨[], [], []⟩) := by
  unfold processQueue
  by_cases htrim : jsTrim content = []
  · rw [if_pos htrim]
  · rw [if_neg htrim, if_pos h]

theorem linesOf_processQueue {cl : List Char → LineClass}
    {send : Nat → Bool} {content : List Char}
    (h : linesOf content ≠ []) :
    linesOf (processQueue cl send content).1
      = (drainLoop cl send (linesOf content) 0).retry := by
  rw [processQueue_eq_of_lines_ne h]
  by_cases hr : (drainLoop cl send (linesOf content) 0).retry = []
  · simp [hr, linesOf_nil]
  · have hsubset :=
      (drainLoop_retry_sublist cl send (linesOf content) 0).subset
    have h1 : ∀ l ∈ (drainLoop cl send (linesOf content) 0).retry,
        '\n' ∉ l := fun l hl => mem_linesOf_no_nl (hsubset hl)
    have h2 : ∀ l ∈ (drainLoop cl send (linesOf content) 0).retry,
        jsTrim l ≠ [] := fun l hl => mem_linesOf_nonblank (hsubset hl)
    simp only [if_neg hr]
    exact linesOf_rewrite h1 h2 hr

/-! ## Concrete oracles used by witnesses and counterexamples -/

/-- A classifier marking every line a valid follow-up entry. -/
def clAllValid : List Char → LineClass := fun _ => .valid ⟨['h'], .followUp⟩

/-- A classifier marking every line a parse failure. -/
def clDead : List Char → LineClass := fun _ => .deadParse

/-- Delivery oracle: every handoff succeeds. -/
def sendTrue : Nat → Bool := fun _ => true

/-- Delivery oracle: every handoff fails. -/
def sendFalse : Nat → Bool := fun _ => false

/-- A parse oracle: the line `q` parses to an object with a one-character
`message` and no `mode` field; everything else fails to parse. -/
def parseW : List Char → Option JVal
  | ['q'] => some (JVal.obj [("message".toList, JVal.str ['h'])])
  | _ => none

theorem splitNl_of_no_nl {l : List Char} (h : '\n' ∉ l) : splitNl l = [l] := by
  induction l with
  | nil => rfl
  | cons c cs ih =>
    have hc : c ≠ '\n' := fun hcn => h (hcn ▸ List.mem_cons_self c cs)
    have hcs : '\n' ∉ cs := fun hm => h (List.mem_cons.mpr (Or.inr hm))
    simp [splitNl, if_neg hc, ih hcs]

theorem linesOf_single {l : List Char} (hnb : jsTrim l ≠ [])
    (hnn : '\n' ∉ l) : linesOf l = [l] := by
  unfold linesOf
  rw [splitNl_of_no_nl hnn]
  simp [List.filter_cons, List.isEmpty_iff, hnb]

/-- C1: for a queue file whose lines are all structurally valid entries,
one drain cycle hands each line's entry to `sendUserMessage` exactly once,
in file order; a line whose handoff fails stays in the rewritten queue and
is attempted again by the next cycle; and when every handoff succeeds the
queue file is left with no entries — literally empty whenever the cycle
read at least one line. -/
theorem queue_drain_exactly_once (cl : List Char → LineClass)
    (send : Nat → Bool) (content : List Char)
    (hv : ∀ l ∈ linesOf content, (cl l).isValid = true) :
    ((processQueue cl send content).2.attempts.map (fun a => a.1)
       = linesOf content)
    ∧ (∀ a ∈ (processQueue cl send content).2.attempts, a.2.2 = false →
         a.1 ∈ linesOf (processQueue cl send content).1
         ∧ ∀ send₂ : Nat → Bool, ∃ b : Bool, (a.1, a.2.1, b) ∈
             (processQueue cl send₂
               (processQueue cl send content).1).2.attempts)
    ∧ ((∀ a ∈ (processQueue cl send content).2.attempts, a.2.2 = true) →
         linesOf (processQueue cl send content).1 = []
         ∧ (linesOf content ≠ [] → (processQueue cl send content).1 = [])) := by
  by_cases h : linesOf content = []
  · rw [processQueue_eq_of_lines_nil h]
    refine ⟨by simpa using h.symm, ?_, ?_⟩
    · intro a ha; simp at ha
    · intro _; exact ⟨h, fun hc => absurd h hc⟩
  · have hpq := @processQueue_eq_of_lines_ne cl send content h
    have hlin := @linesOf_processQueue cl send content h
    refine ⟨?_, ?_, ?_⟩
    · rw [hpq]
      exact drainLoop_attempts_fst cl send (linesOf content) 0 hv
    · intro a ha hfail
      rw [hpq] at ha
      have hmem : a.1 ∈ (drainLoop cl send (linesOf content) 0).retry := by
        apply mem_retry_iff_failed.mpr
        refine ⟨a.2.1, ?_⟩
        have : a = (a.1, a.2.1, false) := by
          obtain ⟨a1, a2, a3⟩ := a
          simp only at hfail ⊢
          simp [hfail]
        exact this ▸ ha
      have hmem' : a.1 ∈ linesOf (processQueue cl send content).1 := by
        rw [hlin]; exact hmem
      refine ⟨hmem', ?_⟩
      intro send₂
      have hcl : cl a.1 = .valid a.2.1 := classify_of_mem_attempts ha
      have hne₂ : linesOf (processQueue cl send content).1 ≠ [] :=
        List.ne_nil_of_mem hmem'
      have hpq₂ := @processQueue_eq_of_lines_ne cl send₂
        (processQueue cl send content).1 hne₂
      have hpairs := drainLoop_attempts_eq cl send₂
        (linesOf (processQueue cl send content).1) 0
      have hpairmem : (a.1, a.2.1) ∈ (drainLoop cl send₂
          (linesOf (processQueue cl send content).1) 0).attempts.map
            (fun a => (a.1, a.2.1)) := by
        rw [hpairs]
        apply List.mem_filterMap.mpr
        exact ⟨a.1, hmem', by rw [hcl]⟩
      rcases List.mem_map.mp hpairmem with ⟨a', ha', hpair⟩
      obtain ⟨x1, x2, x3⟩ := a'
      simp only [Prod.mk.injEq] at hpair
      refine ⟨x3, ?_⟩
      rw [hpq₂]
      simpa [hpair.1, hpair.2] using ha'
    · intro hok
      rw [hpq] at hok
      have hretry : (drainLoop cl send (linesOf content) 0).retry = [] :=
        drainLoop_retry_nil_of_all_ok hok
      have hc' : (processQueue cl send content).1 = [] := by
        rw [hpq]; simp [hretry]
      exact ⟨by rw [hc']; exact linesOf_nil, fun _ => hc'⟩

/-- Witness for C1 at a concrete one-line all-valid queue with all
handoffs succeeding. -/
theorem queue_drain_exactly_once_witness :
    ((processQueue clAllValid sendTrue ['x']).2.attempts.map (fun a => a.1)
       = [['x']])
    ∧ linesOf (processQueue clAllValid sendTrue ['x']).1 = []
    ∧ (processQueue clAllValid sendTrue ['x']).1 = [] := by
  have h := queue_drain_exactly_once clAllValid sendTrue ['x'] (by decide)
  have h3 := h.2.2 (by decide)
  exact ⟨h.1.trans (by decide), h3.1, h3.2 (by decide)⟩

/-- C2: a non-blank line that fails to parse or has a missing/empty
message is appended verbatim to the dead-letter list (which is exactly
the dead lines in file order), is dropped from the rewritten queue, is
never handed to `sendUserMessage`, and — being absent from the rewritten
queue — is neither redelivered nor re-attempted by any later cycle. -/
theorem dead_letter_no_retry (cl : List Char → LineClass)
    (send : Nat → Bool) (content line : List Char)
    (hin : line ∈ linesOf content) (hd : (cl line).isDead = true) :
    ((processQueue cl send content).2.dead
       = (linesOf content).filter (fun l => (cl l).isDead))
    ∧ line ∈ (processQueue cl send content).2.dead
    ∧ line ∉ linesOf (processQueue cl send content).1
    ∧ (∀ e b, (line, e, b) ∉ (processQueue cl send content).2.attempts)
    ∧ (∀ (send₂ : Nat → Bool) (c₂ : List Char), line ∉ linesOf c₂ →
         line ∉ linesOf (processQueue cl send₂ c₂).1
         ∧ ∀ e b, (line, e, b) ∉ (processQueue cl send₂ c₂).2.attempts) := by
  have hlines : linesOf content ≠ [] := List.ne_nil_of_mem hin
  have hpq := @processQueue_eq_of_lines_ne cl send content hlines
  have hnotvalid : ∀ e : QueueEntry, cl line ≠ .valid e := by
    intro e he
    rw [he] at hd
    simp [LineClass.isDead] at hd
  refine ⟨?_, ?_, ?_, ?_, ?_⟩
  · rw [hpq]
    exact drainLoop_dead_eq cl send (linesOf content) 0
  · rw [hpq]
    rw [drainLoop_dead_eq]
    exact List.mem_filter.mpr ⟨hin, hd⟩
  · rw [@linesOf_processQueue cl send content hlines]
    intro hmem
    rcases mem_retry_iff_failed.mp hmem with ⟨e, he⟩
    exact hnotvalid e (classify_of_mem_attempts he)
  · intro e b hmem
    rw [hpq] at hmem
    exact hnotvalid e (classify_of_mem_attempts hmem)
  · intro send₂ c₂ hnot
    by_cases h₂ : linesOf c₂ = []
    · rw [processQueue_eq_of_lines_nil h₂]
      exact ⟨hnot, fun e b hmem => by simp at hmem⟩
    · constructor
      · rw [@linesOf_processQueue cl send₂ c₂ h₂]
        intro hmem
        exact hnot ((drainLoop_retry_sublist cl send₂
          (linesOf c₂) 0).subset hmem)
      · intro e b hmem
        rw [@processQueue_eq_of_lines_ne cl send₂ c₂ h₂]
          at hmem
        exact hnot (mem_ls_of_mem_attempts hmem)

/-- Witness for C2 at a concrete one-line queue whose line is a parse
failure. -/
theorem dead_letter_no_retry_witness :
    ['z'] ∈ (processQueue clDead sendTrue ['z']).2.dead
    ∧ ['z'] ∉ linesOf (processQueue clDead sendTrue ['z']).1
    ∧ (processQueue clDead sendTrue ['z']).2.dead = [['z']] := by
  have h := dead_letter_no_retry clDead sendTrue ['z'] ['z']
    (by decide) (by decide)
  exact ⟨h.2.1, h.2.2.1, h.1.trans (by decide)⟩

/-- C3 (amended): a drain cycle that reads at least one non-blank line
rewrites the live queue to exactly the lines whose handoff failed — a
subsequence of the lines it read, in their original relative order — and
to literally empty content when none failed; a cycle that finds no
non-blank lines leaves the file untouched (the early no-op return); the
file is rewritten, never deleted, and the live queue after a drain is
always a subsequence of its content before the drain. -/
theorem queue_rewrite_narrows (cl : List Char → LineClass)
    (send : Nat → Bool) (content : List Char) :
    (linesOf (processQueue cl send content).1).Sublist (linesOf content)
    ∧ ((processQueue cl send content).2.retry
        = ((processQueue cl send content).2.attempts.filter
            (fun a => !a.2.2)).map (fun a => a.1))
    ∧ (linesOf content ≠ [] →
        linesOf (processQueue cl send content).1
          = (processQueue cl send content).2.retry
        ∧ ((processQueue cl send content).2.retry = [] →
            (processQueue cl send content).1 = []))
    ∧ (linesOf content = [] → (processQueue cl send content).1 = content)
    ∧ (processQueueFile cl send (some content)).1
        = some (processQueue cl send content).1 := by
  by_cases h : linesOf content = []
  · rw [processQueue_eq_of_lines_nil h]
    refine ⟨List.Sublist.refl _, rfl, ?_, fun _ => rfl, ?_⟩
    · intro hc; exact absurd h hc
    · simp [processQueueFile, processQueue_eq_of_lines_nil h]
  · have hpq := @processQueue_eq_of_lines_ne cl send content h
    have hlin := @linesOf_processQueue cl send content h
    refine ⟨?_, ?_, ?_, ?_, ?_⟩
    · rw [hlin]
      exact drainLoop_retry_sublist cl send (linesOf content) 0
    · rw [hpq]
      exact drainLoop_retry_eq cl send (linesOf content) 0
    · intro _
      refine ⟨by rw [hlin, hpq], ?_⟩
      intro hr
      rw [hpq] at hr ⊢
      simp only at hr
      simp [hr]
    · intro hc; exact absurd hc h
    · simp [processQueueFile]

/-- Counterexample for C3 as stated: a drain cycle on a queue file
containing a single space reads no lines and no handoff fails, yet the
file is left as the single space, not rewritten with empty content. -/
theorem queue_blank_noop_cex :
    (processQueue clAllValid sendTrue [' ']).2.retry = []
    ∧ (processQueue clAllValid sendTrue [' ']).1 = [' ']
    ∧ ([' '] : List Char) ≠ [] := by
  refine ⟨by decide, by decide, by decide⟩

/-- Witness for C3 (amended) at a concrete one-line queue whose single
handoff fails: the file is rewritten to exactly that line. -/
theorem queue_rewrite_narrows_witness :
    linesOf (processQueue clAllValid sendFalse ['x']).1
      = (processQueue clAllValid sendFalse ['x']).2.retry
    ∧ (processQueue clAllValid sendFalse ['x']).2.retry = [['x']] := by
  have h := queue_rewrite_narrows clAllValid sendFalse ['x']
  exact ⟨(h.2.2.1 (by decide)).1, by decide⟩

/-- C4: within one drain cycle the `sendUserMessage` calls are exactly the
structurally valid lines of the queue file, paired with their parsed
entries, in file order (FIFO): for valid entries A before B in the file,
A is handed over before B. -/
theorem queue_fifo_order (cl : List Char → LineClass) (send : Nat → Bool)
    (content : List Char) :
    (processQueue cl send content).2.attempts.map (fun a => (a.1, a.2.1))
      = (linesOf content).filterMap (fun l =>
          match cl l with
          | .valid e => some (l, e)
          | _ => none) := by
  by_cases h : linesOf content = []
  · rw [processQueue_eq_of_lines_nil h, h]
    rfl
  · rw [processQueue_eq_of_lines_ne h]
    exact drainLoop_attempts_eq cl send (linesOf content) 0

/-- C10 (implicit): a queue line parsing to an object with a non-empty
string `message` is always delivered (never dead-lettered): with `mode`
exactly the string `steer` it is delivered as a steer message, and with
`mode` absent, non-string, or any other value it is delivered as a
follow-up. -/
theorem mode_defaults_followup (parse : List Char → Option JVal)
    (line m : List Char) (fields : JObj) (send : Nat → Bool)
    (hp : parse line = some (JVal.obj fields))
    (hm : lookupField fields "message".toList = some (JVal.str m))
    (hne : m ≠ [])
    (hnb : jsTrim line ≠ []) (hnn : '\n' ∉ line) :
    (lookupField fields "mode".toList = some (JVal.str "steer".toList) →
       classifyLine parse line = .valid ⟨m, .steer⟩
       ∧ (processQueue (classifyLine parse) send line).2.dead = []
       ∧ (processQueue (classifyLine parse) send line).2.attempts.map
           (fun a => (a.1, a.2.1)) = [(line, ⟨m, .steer⟩)])
    ∧ (lookupField fields "mode".toList ≠ some (JVal.str "steer".toList) →
       classifyLine parse line = .valid ⟨m, .followUp⟩
       ∧ (processQueue (classifyLine parse) send line).2.dead = []
       ∧ (processQueue (classifyLine parse) send line).2.attempts.map
           (fun a => (a.1, a.2.1)) = [(line, ⟨m, .followUp⟩)]) := by
  have hlines : linesOf line = [line] := linesOf_single hnb hnn
  have hdrain : ∀ e : QueueEntry, classifyLine parse line = .valid e →
      (processQueue (classifyLine parse) send line).2.dead = []
      ∧ (processQueue (classifyLine parse) send line).2.attempts.map
          (fun a => (a.1, a.2.1)) = [(line, e)] := by
    intro e hcls
    have hne' : linesOf line ≠ [] := by rw [hlines]; simp
    rw [processQueue_eq_of_lines_ne hne', hlines]
    constructor
    · simp [drainLoop, hcls]
    · simp [drainLoop, hcls]
  constructor
  · intro hsteer
    have hcls : classifyLine parse line = .valid ⟨m, .steer⟩ := by
      simp only [classifyLine, hp, hm, hsteer]
      rw [if_neg hne]
      simp
    exact ⟨hcls, hdrain _ hcls⟩
  · intro hnosteer
    have hcls : classifyLine parse line = .valid ⟨m, .followUp⟩ := by
      simp only [classifyLine, hp, hm]
      rw [if_neg hne]
      cases hmode : lookupField fields "mode".toList with
      | none => rfl
      | some v =>
        cases v with
        | str s =>
          have hs : s ≠ "steer".toList := by
            intro he
            exact hnosteer (by rw [hmode, he])
          simp only [hmode]
          rw [if_neg hs]
        | null => rfl
        | bool b => rfl
        | num n => rfl
        | arr xs => rfl
        | obj o => rfl
    exact ⟨hcls, hdrain _ hcls⟩

/-- Witness for C10 at a concrete line parsing to an object with a
non-empty message and no `mode` field. -/
theorem mode_defaults_followup_witness :
    classifyLine parseW ['q'] = .valid ⟨['h'], .followUp⟩
    ∧ (processQueue (classifyLine parseW) sendTrue ['q']).2.dead = [] := by
  have hnone : lookupField [("message".toList, JVal.str ['h'])]
      "mode".toList = none := by rfl
  have h := mode_defaults_followup parseW ['q'] ['h']
    [("message".toList, JVal.str ['h'])] sendTrue rfl rfl
    (by decide) (by decide) (by decide)
  have h2 := h.2 (by rw [hnone]; exact fun hc => Option.noConfusion hc)
  exact ⟨h2.1, h2.2.1⟩

/-- C7: both the queue consumer's and the status writer's key derivation
compute exactly the spec's `deriveFsKey` rule: lower-case the working
directory, replace each path separator with the reserved separator, strip
a single leading separator. -/
theorem derive_fs_key_agree :
    ∀ cwd : List Char,
      mqSafePath cwd = deriveFsKeySpec cwd
      ∧ safePathFromCwd cwd = deriveFsKeySpec cwd :=
  fun _ => ⟨rfl, rfl⟩

/-! ## C5: status entry per completed turn -/

/-- An assistant text one character over the cap. -/
def longMsg : List Char := List.replicate 4001 'a'

/-- A concrete assistant message and turn used by witnesses. -/
def msgW : Msg := ⟨"assistant".toList, .strc ['h'], none, none⟩

def msgsW : List Msg := [msgW]

/-- A turn whose assistant text exceeds the cap by one character. -/
def msgs5 : List Msg := [⟨"assistant".toList, .strc longMsg, none, none⟩]

/-- Counterexample for C5 as stated: for a 4001-character assistant text,
the appended entry's `message` is the first 4000 characters *plus an
ellipsis* — 4001 characters, not the text truncated to the 4000-character
maximum length. -/
theorem status_truncation_cex :
    ((agentEndStatus ['s'] msgs5 0 [] none).map (fun e => e.message))
      = some (List.replicate 4000 'a' ++ ['…'])
    ∧ (List.replicate 4000 'a' ++ ['…'] : List Char).length = 4001
    ∧ (List.replicate 4000 'a' ++ ['…'] : List Char)
        ≠ longMsg.take MAX_MESSAGE_CHARS := by
  have hla : lastAssistant msgs5
      = some ⟨"assistant".toList, .strc longMsg, none, none⟩ := by rfl
  have hlen : longMsg.length = 4001 := by
    unfold longMsg
    rw [List.length_replicate]
  have htake : longMsg.take MAX_MESSAGE_CHARS = List.replicate 4000 'a' := by
    unfold longMsg MAX_MESSAGE_CHARS
    rw [List.take_replicate]
    norm_num
  have htr : truncateMessage longMsg
      = (List.replicate 4000 'a' ++ ['…'], true) := by
    unfold truncateMessage
    rw [if_neg (by rw [hlen]; unfold MAX_MESSAGE_CHARS; omega), htake]
  refine ⟨?_, ?_, ?_⟩
  · unfold agentEndStatus
    rw [if_neg (by decide : ¬(['s'] : List Char) = []), hla]
    rw [Option.map_some']
    simp only [mkStatusEntry]
    rw [show extractText (MContent.strc longMsg) = longMsg from rfl, htr]
  · rw [List.length_append, List.length_replicate]
    rfl
  · intro he
    rw [htake] at he
    have hcl := congrArg List.length he
    simp only [List.length_append, List.length_replicate,
      List.length_cons, List.length_nil] at hcl
    omega

/-- C5 (amended): every completed turn with a status file set and an
assistant message appends exactly one StatusEntry; its `message` is the
extracted assistant text unchanged when within the 4000-character cap,
and otherwise the first 4000 characters followed by one ellipsis
character; `truncated` is set exactly when the text exceeded the cap; the
remaining fields echo the turn. -/
theorem status_entry_truncation (statusFile : List Char)
    (messages : List Msg) (now : Nat) (cwd : List Char)
    (sfile : Option (List Char)) (m : Msg) (log : List StatusEntry)
    (hsf : statusFile ≠ []) (hla : lastAssistant messages = some m) :
    ∃ e, agentEndStatus statusFile messages now cwd sfile = some e
      ∧ statusLogAfter statusFile messages now cwd sfile log = log ++ [e]
      ∧ e.message = (if (extractText m.content).length ≤ MAX_MESSAGE_CHARS
          then extractText m.content
          else (extractText m.content).take MAX_MESSAGE_CHARS ++ ['…'])
      ∧ (e.truncated = true
          ↔ MAX_MESSAGE_CHARS < (extractText m.content).length)
      ∧ e.status = "done".toList
      ∧ e.stopReason = m.stopReason
      ∧ e.errorMessage = m.errorMessage
      ∧ e.timestamp = now ∧ e.cwd = cwd ∧ e.sessionFile = sfile := by
  have hae : agentEndStatus statusFile messages now cwd sfile
      = some (mkStatusEntry m now cwd sfile) := by
    unfold agentEndStatus
    rw [if_neg hsf, hla]
  refine ⟨mkStatusEntry m now cwd sfile, hae, ?_, ?_, ?_, rfl, rfl, rfl,
    rfl, rfl, rfl⟩
  · unfold statusLogAfter
    rw [hae]
    rfl
  · show (truncateMessage (extractText m.content)).1 = _
    unfold truncateMessage
    by_cases hlen : (extractText m.content).length ≤ MAX_MESSAGE_CHARS
    · rw [if_pos hlen, if_pos hlen]
    · rw [if_neg hlen, if_neg hlen]
  · show (truncateMessage (extractText m.content)).2 = true ↔ _
    unfold truncateMessage
    by_cases hlen : (extractText m.content).length ≤ MAX_MESSAGE_CHARS
    · rw [if_pos hlen]
      simp [Nat.not_lt.mpr hlen]
    · rw [if_neg hlen]
      simp [Nat.lt_of_not_le hlen]

/-- Witness for C5 (amended) at a concrete short turn. -/
theorem status_entry_truncation_witness :
    ∃ e, agentEndStatus ['s'] msgsW 3 ['c'] none = some e
      ∧ e.message = ['h'] ∧ e.truncated = false := by
  have h := status_entry_truncation ['s'] msgsW 3 ['c'] none msgW []
    (by decide) rfl
  obtain ⟨e, h1, _, h3, h4, _⟩ := h
  refine ⟨e, h1, ?_, ?_⟩
  · rw [h3]; rfl
  · by_contra hc
    rw [Bool.not_eq_false] at hc
    have := h4.mp hc
    simp [msgW, extractText, MAX_MESSAGE_CHARS] at this

/-! ## C6: I/O failure isolation -/

/-- An I/O oracle on which every filesystem call throws. -/
def ioFail : Nat → Bool := fun _ => false

/-- Counterexample for C6 as stated: with the very first filesystem call
throwing, the status extension's `agent_end` handler — whose
`appendFileSync` has no surrounding try/catch — propagates the error out
of the operation instead of swallowing it. -/
theorem status_append_error_cex :
    statusAppendIO ioFail ['s'] msgsW 0 [] none [] = .error () := by rfl

/-- C6 (amended): the queue drain and the metadata update swallow every
file I/O error and return normally under any pattern of call failures;
the status append does not — when the turn produces an entry and its
`appendFileSync` fails, the error escapes the handler. -/
theorem io_error_swallowing (cl : List Char → LineClass)
    (send io io₂ io₃ : Nat → Bool) (w : QWorld) (fo : Option JObj)
    (upd : JObj → JObj) (sf : List Char) (msgs : List Msg) (now : Nat)
    (cwd : List Char) (sfile : Option (List Char)) (log : List StatusEntry)
    (m : Msg) :
    (∃ w', processQueueIO cl send io w = .ok w')
    ∧ (∃ fo', updateMetaIO io₂ fo upd = .ok fo')
    ∧ (sf ≠ [] → lastAssistant msgs = some m → io₃ 0 = false →
        statusAppendIO io₃ sf msgs now cwd sfile log = .error ()) := by
  refine ⟨?_, ?_, ?_⟩
  · unfold processQueueIO
    cases processQueueInner cl send io w with
    | ok w' => exact ⟨w', rfl⟩
    | error w' => exact ⟨w', rfl⟩
  · unfold updateMetaIO
    by_cases h : io₂ 1 = true
    · rw [if_pos h]
      exact ⟨_, rfl⟩
    · rw [if_neg h]
      exact ⟨fo, rfl⟩
  · intro hsf hla hio
    have hae : agentEndStatus sf msgs now cwd sfile
        = some (mkStatusEntry m now cwd sfile) := by
      unfold agentEndStatus
      rw [if_neg hsf, hla]
    unfold statusAppendIO
    rw [hae, hio]
    rfl

/-- Witness for C6 (amended): the drain swallows an all-failing oracle on
a concrete world, while the status append propagates the failure. -/
theorem io_error_swallowing_witness :
    (∃ w', processQueueIO clAllValid sendTrue ioFail
        ⟨some ['x'], []⟩ = .ok w')
    ∧ statusAppendIO ioFail ['s'] msgsW 2 ['c'] none [] = .error () := by
  have h := io_error_swallowing clAllValid sendTrue ioFail ioFail ioFail
    ⟨some ['x'], []⟩ none id ['s'] msgsW 2 ['c'] none [] msgW
  exact ⟨h.1, h.2.2 (by decide) rfl rfl⟩

/-! ## C8 and C9: metadata updates -/

/-- The last assistant text of the spec's concrete scenario 3. -/
def scenarioText : List Char :=
  "Status: ok\n/kw-tags arch,api\n/kw-note owns contracts".toList

/-- A text with two tag directives, to exhibit first-match-wins. -/
def twoTagsText : List Char := "/kw-tags a\n/kw-tags b".toList

/-- C8: for the scenario-3 assistant text, the turn-end inline update
leaves the metadata with `tags = ["arch","api"]` (payload split on
comma/semicolon, trimmed, empties dropped) and
`description = "owns contracts"`, whatever the prior metadata object; and
with two directive lines for the same field, the first match wins. -/
theorem inline_meta_scenario (metaFile : List Char) (cur : JObj)
    (now : List Char) (hmf : metaFile ≠ []) :
    lookupField (applyInlineMeta metaFile scenarioText cur now)
        "tags".toList
      = some (JVal.arr [JVal.str "arch".toList, JVal.str "api".toList])
    ∧ lookupField (applyInlineMeta metaFile scenarioText cur now)
        "description".toList
      = some (JVal.str "owns contracts".toList)
    ∧ lookupField (applyInlineMeta metaFile twoTagsText cur now)
        "tags".toList
      = some (JVal.arr [JVal.str ['a']]) := by
  have hg : ¬(metaFile = [] ∨ scenarioText = []) :=
    not_or.mpr ⟨hmf, by decide⟩
  have hg₂ : ¬(metaFile = [] ∨ twoTagsText = []) :=
    not_or.mpr ⟨hmf, by decide⟩
  have htags : scanCmd kwTagsLit scenarioText = some "arch,api".toList := by
    rfl
  have hnote : scanCmd kwNoteLit scenarioText
      = some "owns contracts".toList := by rfl
  have htags₂ : scanCmd kwTagsLit twoTagsText = some ['a'] := by rfl
  have hnote₂ : scanCmd kwNoteLit twoTagsText = none := by rfl
  have hpt : parseTags "arch,api".toList
      = ["arch".toList, "api".toList] := by rfl
  have hpt₂ : parseTags ['a'] = [['a']] := by rfl
  have hjt : jsTrim "owns contracts".toList = "owns contracts".toList := by
    rfl
  have hdf : ∀ c : JObj, descFallback "owns contracts".toList c
      = JVal.str "owns contracts".toList := by
    intro c
    unfold descFallback
    rw [if_pos (by decide : ("owns contracts".toList : List Char) ≠ [])]
  refine ⟨?_, ?_, ?_⟩
  · simp only [applyInlineMeta, if_neg hg, htags, hnote, updateMetaPure,
      Option.getD_some, kwTagsUpdater, hpt, hjt, hdf, List.map_cons,
      List.map_nil]
    rw [lookupField_setField_ne _ _ (by decide),
      lookupField_setField_ne _ _ (by decide),
      lookupField_setField_ne _ _ (by decide),
      lookupField_setField_same]
  · simp only [applyInlineMeta, if_neg hg, htags, hnote, updateMetaPure,
      Option.getD_some, kwTagsUpdater, hpt, hjt, hdf, List.map_cons,
      List.map_nil]
    rw [lookupField_setField_ne _ _ (by decide),
      lookupField_setField_same]
  · simp only [applyInlineMeta, if_neg hg₂, htags₂, hnote₂,
      updateMetaPure, Option.getD_some, kwTagsUpdater, hpt₂,
      List.map_cons, List.map_nil]
    rw [lookupField_setField_ne _ _ (by decide),
      lookupField_setField_same]

/-- Witness for C8 at a concrete metadata file path. -/
theorem inline_meta_scenario_witness :
    lookupField (applyInlineMeta ['f'] scenarioText [] []) "tags".toList
      = some (JVal.arr [JVal.str "arch".toList, JVal.str "api".toList])
    ∧ lookupField (applyInlineMeta ['f'] scenarioText [] [])
        "description".toList
      = some (JVal.str "owns contracts".toList) := by
  have h := inline_meta_scenario ['f'] [] [] (by decide)
  exact ⟨h.1, h.2.1⟩

/-- C9: every metadata write — the `kw-tags` handler, the `kw-note`
handler, and the turn-end inline update — reads the current object and
shallow-merges, so every field other than `tags`, `description` and
`updatedAt` keeps its previous value. -/
theorem meta_preserves_unknown_fields (cur : JObj)
    (args note now text metaFile k : List Char)
    (h1 : k ≠ "tags".toList) (h2 : k ≠ "description".toList)
    (h3 : k ≠ "updatedAt".toList) :
    lookupField (updateMetaPure (some cur)
        (kwTagsUpdater (parseTags args) now)) k = lookupField cur k
    ∧ lookupField (updateMetaPure (some cur) (kwNoteUpdater note now)) k
      = lookupField cur k
    ∧ lookupField (applyInlineMeta metaFile text cur now) k
      = lookupField cur k := by
  have htags' : ∀ (o : JObj) (tl : List (List Char)),
      lookupField (kwTagsUpdater tl now o) k = lookupField o k := by
    intro o tl
    unfold kwTagsUpdater
    rw [lookupField_setField_ne _ _ h3, lookupField_setField_ne _ _ h1]
  have hdesc' : ∀ (o : JObj) (d : JVal),
      lookupField (setField (setField o "description".toList d)
        "updatedAt".toList (JVal.str now)) k = lookupField o k := by
    intro o d
    rw [lookupField_setField_ne _ _ h3, lookupField_setField_ne _ _ h2]
  refine ⟨?_, ?_, ?_⟩
  · simp only [updateMetaPure, Option.getD_some]
    exact htags' cur _
  · simp only [updateMetaPure, Option.getD_some, kwNoteUpdater]
    exact hdesc' cur _
  · unfold applyInlineMeta
    by_cases hg : metaFile = [] ∨ text = []
    · rw [if_pos hg]
    · rw [if_neg hg]
      cases hts : scanCmd kwTagsLit text with
      | none =>
        cases hns : scanCmd kwNoteLit text with
        | none => simp only
        | some p =>
          simp only [updateMetaPure, Option.getD_some]
          exact hdesc' cur _
      | some p =>
        cases hns : scanCmd kwNoteLit text with
        | none =>
          simp only [updateMetaPure, Option.getD_some]
          exact htags' cur _
        | some p₂ =>
          simp only [updateMetaPure, Option.getD_some]
          rw [hdesc' _ _]
          exact htags' cur _

/-- A concrete metadata object with an unknown field `owner`. -/
def curW : JObj := [("owner".toList, JVal.str ['m']), ("tags".toList, JVal.arr [])]

/-- Witness for C9: the unknown field `owner` survives a tags write and
an inline update on a concrete object. -/
theorem meta_preserves_unknown_fields_witness :
    lookupField (updateMetaPure (some curW)
        (kwTagsUpdater (parseTags "a,b".toList) "t".toList)) "owner".toList
      = some (JVal.str ['m'])
    ∧ lookupField (applyInlineMeta ['f'] "hey".toList curW "t".toList)
        "owner".toList = some (JVal.str ['m']) := by
  have h := meta_preserves_unknown_fields curW "a,b".toList "n".toList
    "t".toList "hey".toList ['f'] "owner".toList
    (by decide) (by decide) (by decide)
  exact ⟨h.1.trans (by rfl), h.2.2.trans (by rfl)⟩
